import Mathlib

/-!
# Greek numerology calculator — verification development

Shallow embedding of the computational core of `src/index.html`:
the two letter-value tables (`vowels`, `consonants`), their spread union
(`alphabet_dict`), the digit-sum/while-loop reduction (`reduceNumber`), the
per-character summation (`sumValues`), and the per-word analysis performed by
`calculate` (`analyzeWord`).

JavaScript objects used as lookup tables are embedded as association lists
(`List (Char × Nat)`); `table[letter]` becomes `List.lookup`, and the JS
truthiness test `if (table[letter])` becomes a `some`/`none` match together
with a non-zero test on the value.  The `while (n >= 10)` loop of
`reduceNumber` and the digit-sum expression
`n.toString().split('').reduce((sum, digit) => sum + Number(digit), 0)`
are embedded with explicit fuel (the loop value strictly decreases, so `n`
steps of fuel always suffice); their fixpoint equations `digitSum_eq` and
`reduceNumber_eq` are proved below and are the interface used by all proofs.
-/

/-- `const vowels = { "Α":1, "Ε":5, "Η":7, "Ι":9, "Ο":6, "Υ":2, "Ω":6 };` -/
def vowels : List (Char × Nat) :=
  [('Α', 1), ('Ε', 5), ('Η', 7), ('Ι', 9), ('Ο', 6), ('Υ', 2), ('Ω', 6)]

/-- `const consonants = { "Β":2, "Γ":3, "Δ":4, "Ζ":6, "Θ":8, "Κ":1, "Λ":2,
"Μ":3, "Ν":4, "Ξ":5, "Π":7, "Ρ":8, "Σ":9, "Τ":1, "Φ":3, "Χ":4, "Ψ":5 };` -/
def consonants : List (Char × Nat) :=
  [('Β', 2), ('Γ', 3), ('Δ', 4), ('Ζ', 6), ('Θ', 8), ('Κ', 1), ('Λ', 2),
   ('Μ', 3), ('Ν', 4), ('Ξ', 5), ('Π', 7), ('Ρ', 8), ('Σ', 9), ('Τ', 1),
   ('Φ', 3), ('Χ', 4), ('Ψ', 5)]

/-- `const alphabet_dict = { ...vowels, ...consonants };`
For association-list lookup, an object spread of key-disjoint objects is the
concatenation of the two tables (key disjointness is proved in
`vowels_consonants_key_disjoint`; with disjoint keys the override order of the
spread is immaterial). -/
def alphabet_dict : List (Char × Nat) := vowels ++ consonants

/-- Fuel-indexed decimal digit sum: one unit of fuel per digit-extraction
step.  `digitSum` below supplies fuel `n`, which always suffices because
`n / 10 < n` for `n > 0`. -/
def digitSumAux : Nat → Nat → Nat
  | 0, _ => 0
  | fuel + 1, n => if n = 0 then 0 else n % 10 + digitSumAux fuel (n / 10)

/-- Sum of the decimal digits of `n`: the embedding of
`n.toString().split('').reduce((sum, digit) => sum + Number(digit), 0)`
(the order in which the digits are added does not affect the sum). -/
def digitSum (n : Nat) : Nat := digitSumAux n n

/-- Fuel-indexed body of the `while (n >= 10)` loop of `reduceNumber`. -/
def reduceAux : Nat → Nat → Nat
  | 0, n => n
  | fuel + 1, n => if 10 ≤ n then reduceAux fuel (digitSum n) else n

/-- ```
function reduceNumber(n) {
  while (n >= 10) {
    n = n.toString().split('').reduce((sum, digit) => sum + Number(digit), 0);
  }
  return n;
}
```
Fuel `n` always suffices: each iteration strictly decreases the value
(`digitSum_lt`), so the loop runs at most `n` times.  The loop's fixpoint
equation is proved as `reduceNumber_eq`. -/
def reduceNumber (n : Nat) : Nat := reduceAux n n

/-- Contribution of a single character under a table: the value added by the
loop body `if (table[letter]) { total += table[letter]; }` of `sumValues`
(a missing key is `undefined`, hence falsy; a present value is added when
truthy, i.e. non-zero). -/
def charContrib (table : List (Char × Nat)) (c : Char) : Nat :=
  match table.lookup c with
  | some v => if v ≠ 0 then v else 0
  | none => 0

/-- ```
function sumValues(word, table) {
  let total = 0;
  for (const letter of word) {
    if (table[letter]) {
      total += table[letter];
    }
  }
  return total;
}
```
The `for … of` string iterator yields one code point at a time, embedded as
`List Char`. -/
def sumValues (word : List Char) (table : List (Char × Nat)) : Nat :=
  word.foldl
    (fun total letter =>
      match table.lookup letter with
      | some v => if v ≠ 0 then total + v else total
      | none => total)
    0

/-- The six derived values `calculate` computes and displays for one word. -/
structure Analysis where
  vowel_sum : Nat
  vowel_reduced : Nat
  consonant_sum : Nat
  consonant_reduced : Nat
  total_sum : Nat
  total_reduced : Nat
deriving DecidableEq

/-- The per-word body of `calculate`:
```
const vowelSum = sumValues(word, vowels);
const consonantSum = sumValues(word, consonants);
const fullSum = sumValues(word, alphabet_dict);
```
rendered together with `reduceNumber(vowelSum)`, `reduceNumber(consonantSum)`
and `reduceNumber(fullSum)`. -/
def analyzeWord (word : List Char) : Analysis :=
  { vowel_sum := sumValues word vowels
    vowel_reduced := reduceNumber (sumValues word vowels)
    consonant_sum := sumValues word consonants
    consonant_reduced := reduceNumber (sumValues word consonants)
    total_sum := sumValues word alphabet_dict
    total_reduced := reduceNumber (sumValues word alphabet_dict) }

/-! ## Digit-sum recurrence and bounds -/

lemma digitSumAux_zero (fuel : Nat) : digitSumAux fuel 0 = 0 := by
  cases fuel <;> simp [digitSumAux]

lemma digitSumAux_fuel_irrel (n : Nat) :
    ∀ f₁ f₂, n ≤ f₁ → n ≤ f₂ → digitSumAux f₁ n = digitSumAux f₂ n := by
  induction n using Nat.strong_induction_on with
  | _ n ih =>
    intro f₁ f₂ h₁ h₂
    rcases Nat.eq_zero_or_pos n with hn | hn
    · subst hn
      rw [digitSumAux_zero, digitSumAux_zero]
    · obtain ⟨a, rfl⟩ : ∃ a, f₁ = a + 1 := ⟨f₁ - 1, by omega⟩
      obtain ⟨b, rfl⟩ : ∃ b, f₂ = b + 1 := ⟨f₂ - 1, by omega⟩
      have hd : n / 10 < n := Nat.div_lt_self hn (by norm_num)
      simp only [digitSumAux, if_neg (Nat.pos_iff_ne_zero.mp hn)]
      rw [ih (n / 10) hd a b (by omega) (by omega)]

/-- Recurrence for the decimal digit sum. -/
lemma digitSum_eq (n : Nat) :
    digitSum n = if n = 0 then 0 else n % 10 + digitSum (n / 10) := by
  rcases Nat.eq_zero_or_pos n with hn | hn
  · subst hn; simp [digitSum, digitSumAux]
  · obtain ⟨m, rfl⟩ : ∃ m, n = m + 1 := ⟨n - 1, by omega⟩
    rw [if_neg (by omega : ¬m + 1 = 0)]
    simp only [digitSum, digitSumAux]
    rw [if_neg (by omega : ¬m + 1 = 0)]
    congr 1
    exact digitSumAux_fuel_irrel ((m + 1) / 10) m ((m + 1) / 10) (by omega) le_rfl

lemma digitSum_le (n : Nat) : digitSum n ≤ n := by
  induction n using Nat.strong_induction_on with
  | _ n ih =>
    rw [digitSum_eq]
    rcases Nat.eq_zero_or_pos n with hn | hn
    · simp [hn]
    · rw [if_neg (Nat.pos_iff_ne_zero.mp hn)]
      have := ih (n / 10) (Nat.div_lt_self hn (by norm_num))
      omega

lemma digitSum_lt (n : Nat) (h : 10 ≤ n) : digitSum n < n := by
  rw [digitSum_eq, if_neg (by omega)]
  have := digitSum_le (n / 10)
  omega

lemma digitSum_pos (n : Nat) (h : 0 < n) : 0 < digitSum n := by
  induction n using Nat.strong_induction_on with
  | _ n ih =>
    rw [digitSum_eq, if_neg (Nat.pos_iff_ne_zero.mp h)]
    rcases Nat.eq_zero_or_pos (n % 10) with hr | hr
    · have hd : 0 < n / 10 := by omega
      have := ih (n / 10) (Nat.div_lt_self h (by norm_num)) hd
      omega
    · omega

lemma digitSum_mod_nine (n : Nat) : digitSum n % 9 = n % 9 := by
  induction n using Nat.strong_induction_on with
  | _ n ih =>
    rw [digitSum_eq]
    rcases Nat.eq_zero_or_pos n with hn | hn
    · simp [hn]
    · rw [if_neg (Nat.pos_iff_ne_zero.mp hn)]
      have := ih (n / 10) (Nat.div_lt_self hn (by norm_num))
      omega

/-! ## The while loop of `reduceNumber`: fixpoint equation and closed form -/

lemma reduceAux_of_lt (fuel n : Nat) (h : n < 10) : reduceAux fuel n = n := by
  cases fuel with
  | zero => rfl
  | succ f => simp only [reduceAux, if_neg (by omega : ¬10 ≤ n)]

lemma reduceAux_fuel_irrel (n : Nat) :
    ∀ f₁ f₂, n ≤ f₁ → n ≤ f₂ → reduceAux f₁ n = reduceAux f₂ n := by
  induction n using Nat.strong_induction_on with
  | _ n ih =>
    intro f₁ f₂ h₁ h₂
    rcases Nat.lt_or_ge n 10 with hn | hn
    · rw [reduceAux_of_lt _ _ hn, reduceAux_of_lt _ _ hn]
    · obtain ⟨a, rfl⟩ : ∃ a, f₁ = a + 1 := ⟨f₁ - 1, by omega⟩
      obtain ⟨b, rfl⟩ : ∃ b, f₂ = b + 1 := ⟨f₂ - 1, by omega⟩
      have hd : digitSum n < n := digitSum_lt n hn
      simp only [reduceAux, if_pos hn]
      exact ih (digitSum n) hd a b (by omega) (by omega)

/-- The fixpoint equation of `while (n >= 10) { n = digitSum(n); }`:
one loop test, followed by the rest of the loop on the digit sum. -/
lemma reduceNumber_eq (n : Nat) :
    reduceNumber n = if 10 ≤ n then reduceNumber (digitSum n) else n := by
  rcases Nat.lt_or_ge n 10 with hn | hn
  · rw [if_neg (by omega : ¬10 ≤ n)]
    exact reduceAux_of_lt n n hn
  · obtain ⟨m, rfl⟩ : ∃ m, n = m + 1 := ⟨n - 1, by omega⟩
    rw [if_pos hn]
    show reduceAux (m + 1) (m + 1) = reduceNumber (digitSum (m + 1))
    simp only [reduceAux, if_pos hn]
    exact reduceAux_fuel_irrel (digitSum (m + 1)) m (digitSum (m + 1))
      (by have := digitSum_lt (m + 1) hn; omega) le_rfl

lemma reduceNumber_of_lt (n : Nat) (h : n < 10) : reduceNumber n = n := by
  rw [reduceNumber_eq, if_neg (by omega)]

lemma reduceNumber_lt_ten (n : Nat) : reduceNumber n < 10 := by
  induction n using Nat.strong_induction_on with
  | _ n ih =>
    rw [reduceNumber_eq]
    rcases Nat.lt_or_ge n 10 with hn | hn
    · rwa [if_neg (by omega)]
    · rw [if_pos hn]
      exact ih (digitSum n) (digitSum_lt n hn)

/-- Closed form: `reduceNumber` is the digital root,
`0 ↦ 0` and `n ↦ 1 + (n - 1) % 9` for positive `n`. -/
lemma reduceNumber_closed (n : Nat) :
    reduceNumber n = if n = 0 then 0 else 1 + (n - 1) % 9 := by
  induction n using Nat.strong_induction_on with
  | _ n ih =>
    rw [reduceNumber_eq]
    rcases Nat.lt_or_ge n 10 with hn | hn
    · rw [if_neg (by omega)]
      rcases Nat.eq_zero_or_pos n with h0 | h0
      · simp [h0]
      · rw [if_neg (by omega)]; omega
    · rw [if_pos hn, ih (digitSum n) (digitSum_lt n hn)]
      have hpos : 0 < digitSum n := digitSum_pos n (by omega)
      have hmod : digitSum n % 9 = n % 9 := digitSum_mod_nine n
      rw [if_neg (by omega), if_neg (by omega)]
      omega

/-! ## Association-list lookup facts -/

lemma lookup_append_eq (a b : List (Char × Nat)) (c : Char) :
    (a ++ b).lookup c =
      match a.lookup c with
      | some v => some v
      | none => b.lookup c := by
  induction a with
  | nil => simp [List.lookup]
  | cons p t ih =>
    obtain ⟨k, v⟩ := p
    by_cases hk : c = k
    · subst hk
      simp [List.lookup]
    · simp only [List.cons_append, List.lookup,
        beq_eq_false_iff_ne.mpr hk]
      exact ih

lemma pair_mem_of_lookup_eq_some {l : List (Char × Nat)} {c : Char} {v : Nat}
    (h : l.lookup c = some v) : (c, v) ∈ l := by
  induction l with
  | nil => simp [List.lookup] at h
  | cons p t ih =>
    obtain ⟨k, w⟩ := p
    by_cases hk : c = k
    · subst hk
      simp only [List.lookup, beq_self_eq_true] at h
      simp only [Option.some.injEq] at h
      subst h
      exact List.mem_cons_self _ _
    · simp only [List.lookup, beq_eq_false_iff_ne.mpr hk] at h
      exact List.mem_cons_of_mem _ (ih h)

lemma lookup_eq_none_of_forall_ne {l : List (Char × Nat)} {c : Char}
    (h : ∀ p ∈ l, c ≠ p.1) : l.lookup c = none := by
  induction l with
  | nil => rfl
  | cons p t ih =>
    obtain ⟨k, w⟩ := p
    have hk : c ≠ k := h (k, w) (List.mem_cons_self _ _)
    simp only [List.lookup, beq_eq_false_iff_ne.mpr hk]
    exact ih fun q hq => h q (List.mem_cons_of_mem _ hq)

/-- The two tables have disjoint key sets (checked by evaluation). -/
lemma vowels_consonants_key_disjoint :
    ∀ p ∈ vowels, consonants.lookup p.1 = none := by decide

/-- A key of the vowel table is not a key of the consonant table. -/
lemma consonants_lookup_eq_none {c : Char} {v : Nat}
    (h : vowels.lookup c = some v) : consonants.lookup c = none := by
  have hm := pair_mem_of_lookup_eq_some h
  exact vowels_consonants_key_disjoint (c, v) hm

/-- Per-character split of the union-table contribution. -/
lemma charContrib_union (c : Char) :
    charContrib alphabet_dict c =
      charContrib vowels c + charContrib consonants c := by
  simp only [charContrib, alphabet_dict, lookup_append_eq]
  rcases hv : vowels.lookup c with _ | v
  · simp
  · rw [consonants_lookup_eq_none hv]
    simp

/-! ## `sumValues` as a sum of per-character contributions -/

lemma sumValues_step (table : List (Char × Nat)) (total : Nat) (c : Char) :
    (match table.lookup c with
      | some v => if v ≠ 0 then total + v else total
      | none => total) = total + charContrib table c := by
  simp only [charContrib]
  rcases table.lookup c with _ | v
  · simp
  · by_cases hv : v = 0 <;> simp [hv]

lemma sumValues_foldl (word : List Char) (table : List (Char × Nat)) :
    ∀ acc : Nat,
      word.foldl
        (fun total letter =>
          match table.lookup letter with
          | some v => if v ≠ 0 then total + v else total
          | none => total)
        acc = acc + sumValues word table := by
  induction word with
  | nil => intro acc; simp [sumValues]
  | cons c w ih =>
    intro acc
    simp only [sumValues, List.foldl_cons]
    rw [ih, ih, sumValues_step, sumValues_step]
    omega

lemma sumValues_nil (table : List (Char × Nat)) : sumValues [] table = 0 := rfl

lemma sumValues_cons (c : Char) (w : List Char) (table : List (Char × Nat)) :
    sumValues (c :: w) table = charContrib table c + sumValues w table := by
  show List.foldl _ _ (c :: w) = _
  rw [List.foldl_cons, sumValues_foldl, sumValues_step]
  omega

/-! ## Derived facts about `sumValues` and `reduceNumber` -/

/-- The union-table sum splits into the vowel and consonant sums. -/
lemma sumValues_union (word : List Char) :
    sumValues word alphabet_dict =
      sumValues word vowels + sumValues word consonants := by
  induction word with
  | nil => rfl
  | cons c w ih =>
    rw [sumValues_cons, sumValues_cons, sumValues_cons, charContrib_union, ih]
    omega

lemma sumValues_eq_zero_of_lookup_none (word : List Char)
    (table : List (Char × Nat)) (h : ∀ c ∈ word, table.lookup c = none) :
    sumValues word table = 0 := by
  induction word with
  | nil => rfl
  | cons c w ih =>
    rw [sumValues_cons]
    have hc : charContrib table c = 0 := by
      simp [charContrib, h c (List.mem_cons_self _ _)]
    rw [hc, ih fun d hd => h d (List.mem_cons_of_mem _ hd)]

lemma charContrib_le_sumValues (word : List Char) (table : List (Char × Nat))
    (c : Char) (hc : c ∈ word) : charContrib table c ≤ sumValues word table := by
  induction word with
  | nil => cases hc
  | cons d w ih =>
    rw [sumValues_cons]
    rcases List.mem_cons.mp hc with rfl | hc'
    · omega
    · have := ih hc'
      omega

lemma reduceNumber_add_hom (a b : Nat) :
    reduceNumber (a + b) = reduceNumber (reduceNumber a + reduceNumber b) := by
  rcases Nat.eq_zero_or_pos a with ha | ha
  · subst ha
    rw [Nat.zero_add, reduceNumber_of_lt 0 (by norm_num), Nat.zero_add,
      reduceNumber_of_lt (reduceNumber b) (reduceNumber_lt_ten b)]
  · rcases Nat.eq_zero_or_pos b with hb | hb
    · subst hb
      rw [Nat.add_zero, reduceNumber_of_lt 0 (by norm_num), Nat.add_zero,
        reduceNumber_of_lt (reduceNumber a) (reduceNumber_lt_ten a)]
    · have h1 := reduceNumber_closed a
      rw [if_neg (by omega)] at h1
      have h2 := reduceNumber_closed b
      rw [if_neg (by omega)] at h2
      have hs := reduceNumber_closed (a + b)
      rw [if_neg (by omega)] at hs
      have h3 := reduceNumber_closed (reduceNumber a + reduceNumber b)
      rw [if_neg (by omega)] at h3
      rw [hs, h3, h1, h2]
      omega

/-! ## Claims -/

/-- C1: `reduceNumber` realises the repeated-digit-sum loop (its fixpoint
equation holds for every input), `reduceNumber 0 = 0`, and for every positive
`n` it equals the digital-root closed form `1 + (n - 1) % 9`. -/
theorem c1_reduceNumber_digital_root (n : Nat) (h : 0 < n) :
    reduceNumber 0 = 0 ∧
    reduceNumber n = 1 + (n - 1) % 9 ∧
    ∀ m, reduceNumber m = if 10 ≤ m then reduceNumber (digitSum m) else m := by
  refine ⟨reduceNumber_of_lt 0 (by norm_num), ?_, reduceNumber_eq⟩
  rw [reduceNumber_closed, if_neg (by omega)]

theorem c1_reduceNumber_digital_root_witness :
    0 < 38 ∧ reduceNumber 38 = 1 + (38 - 1) % 9 :=
  ⟨by decide, (c1_reduceNumber_digital_root 38 (by decide)).2.1⟩

/-- C2: for every word, the sum over the union table `alphabet_dict` equals
the vowel sum plus the consonant sum. -/
theorem c2_total_eq_vowel_add_consonant (word : List Char) :
    sumValues word alphabet_dict =
      sumValues word vowels + sumValues word consonants :=
  sumValues_union word

/-- C3: the word "ΑΒ" analyses to vowel_sum 1, consonant_sum 2, total_sum 3
with every reduced value equal to its unreduced sum, and "ΚΑΛΗ" analyses to
vowel_sum 8, consonant_sum 3, total_sum 11 with total_reduced 2. -/
theorem c3_literal_words :
    analyzeWord ['Α', 'Β'] = ⟨1, 1, 2, 2, 3, 3⟩ ∧
    analyzeWord ['Κ', 'Α', 'Λ', 'Η'] = ⟨8, 8, 3, 3, 11, 2⟩ := by
  decide

/-- C4: the vowel table has 7 entries and the consonant table 17; together
they cover 24 distinct Greek uppercase letters (range Α..Ω, U+0391..U+03A9),
no letter is in both tables, and every value lies in [1, 9]. -/
theorem c4_tables_shape :
    vowels.length = 7 ∧ consonants.length = 17 ∧
    (alphabet_dict.map Prod.fst).length = 24 ∧
    (alphabet_dict.map Prod.fst).Nodup ∧
    (∀ p ∈ vowels, ∀ q ∈ consonants, p.1 ≠ q.1) ∧
    (∀ p ∈ alphabet_dict, 0x391 ≤ p.1.toNat ∧ p.1.toNat ≤ 0x3A9) ∧
    (∀ p ∈ alphabet_dict, 1 ≤ p.2 ∧ p.2 ≤ 9) := by
  decide

/-- C5: under any of the three tables, a character of a word contributes its
table value to `sumValues` when it is a key and 0 otherwise; characters
outside the Greek uppercase block U+0391..U+03A9 (Latin letters, digits,
punctuation, lowercase) contribute 0, and the computation is total. -/
theorem c5_char_contribution (word : List Char) (c : Char)
    (table : List (Char × Nat))
    (htab : table = vowels ∨ table = consonants ∨ table = alphabet_dict) :
    sumValues (word ++ [c]) table = sumValues word table + charContrib table c ∧
    (∀ v, table.lookup c = some v → charContrib table c = v) ∧
    (table.lookup c = none → charContrib table c = 0) ∧
    (c.toNat < 0x391 ∨ 0x3A9 < c.toNat → charContrib table c = 0) := by
  have hvals : ∀ p ∈ table, p.2 ≠ 0 := by
    rcases htab with rfl | rfl | rfl <;> decide
  have hkeys : ∀ p ∈ table, 0x391 ≤ p.1.toNat ∧ p.1.toNat ≤ 0x3A9 := by
    rcases htab with rfl | rfl | rfl <;> decide
  refine ⟨?_, ?_, ?_, ?_⟩
  · show List.foldl _ _ (word ++ [c]) = _
    rw [List.foldl_append, List.foldl_cons, List.foldl_nil, sumValues_step]
    rfl
  · intro v hv
    have hne : v ≠ 0 := hvals (c, v) (pair_mem_of_lookup_eq_some hv)
    simp [charContrib, hv, hne]
  · intro hv
    simp [charContrib, hv]
  · intro hrange
    have hnone : table.lookup c = none := by
      refine lookup_eq_none_of_forall_ne fun p hp hcp => ?_
      have := hkeys p hp
      rw [← hcp] at this
      omega
    simp [charContrib, hnone]

theorem c5_char_contribution_witness :
    (vowels = vowels ∨ vowels = consonants ∨ vowels = alphabet_dict) ∧
    (sumValues (['Β'] ++ ['A']) vowels =
        sumValues ['Β'] vowels + charContrib vowels 'A' ∧
      (∀ v, vowels.lookup 'A' = some v → charContrib vowels 'A' = v) ∧
      (vowels.lookup 'A' = none → charContrib vowels 'A' = 0) ∧
      ('A'.toNat < 0x391 ∨ 0x3A9 < 'A'.toNat → charContrib vowels 'A' = 0)) :=
  ⟨Or.inl rfl, c5_char_contribution ['Β'] 'A' vowels (Or.inl rfl)⟩

/-- C6: the core computation is total — the digit sum of any `n ≥ 10` is
strictly smaller than `n` (so the `while` loop of `reduceNumber` terminates,
with a single-digit result), and the per-word analysis is defined on every
sequence of characters. -/
theorem c6_totality (n : Nat) (word : List Char) (h : 10 ≤ n) :
    digitSum n < n ∧ reduceNumber n < 10 ∧
    ∃ a : Analysis, analyzeWord word = a ∧
      a.total_sum = sumValues word alphabet_dict :=
  ⟨digitSum_lt n h, reduceNumber_lt_ten n, analyzeWord word, rfl, rfl⟩

theorem c6_totality_witness :
    10 ≤ 10 ∧
    (digitSum 10 < 10 ∧ reduceNumber 10 < 10 ∧
      ∃ a : Analysis, analyzeWord ['Α'] = a ∧
        a.total_sum = sumValues ['Α'] alphabet_dict) :=
  ⟨by decide, c6_totality 10 ['Α'] (by decide)⟩

/-- C7: a word none of whose characters is a key of the given table sums to
0 under that table (regardless of what the other table recognizes), and a
word with no characters recognized by the union table (in particular the
empty word) analyses to all six values 0. -/
theorem c7_unrecognized_all_zero (word : List Char) (table : List (Char × Nat))
    (htab : ∀ c ∈ word, table.lookup c = none) :
    sumValues word table = 0 ∧
    ((∀ c ∈ word, alphabet_dict.lookup c = none) →
      analyzeWord word = ⟨0, 0, 0, 0, 0, 0⟩) := by
  refine ⟨sumValues_eq_zero_of_lookup_none word table htab, fun hall => ?_⟩
  have hv : ∀ c ∈ word, vowels.lookup c = none := by
    intro c hc
    have h := hall c hc
    simp only [alphabet_dict, lookup_append_eq] at h
    rcases hvc : vowels.lookup c with _ | v
    · rfl
    · rw [hvc] at h
      simp at h
  have hc : ∀ c ∈ word, consonants.lookup c = none := by
    intro c hc
    have h := hall c hc
    simp only [alphabet_dict, lookup_append_eq] at h
    rw [hv c hc] at h
    exact h
  have h1 := sumValues_eq_zero_of_lookup_none word vowels hv
  have h2 := sumValues_eq_zero_of_lookup_none word consonants hc
  have h3 := sumValues_eq_zero_of_lookup_none word alphabet_dict hall
  simp [analyzeWord, h1, h2, h3, reduceNumber_of_lt 0 (by norm_num)]

theorem c7_unrecognized_all_zero_witness :
    (∀ c ∈ ['Κ', 'Λ', 'Μ'], vowels.lookup c = none) ∧
    sumValues ['Κ', 'Λ', 'Μ'] vowels = 0 ∧
    (∀ c ∈ ['A', '1', '.'], alphabet_dict.lookup c = none) ∧
    analyzeWord ['A', '1', '.'] = ⟨0, 0, 0, 0, 0, 0⟩ :=
  ⟨by decide,
    (c7_unrecognized_all_zero ['Κ', 'Λ', 'Μ'] vowels (by decide)).1,
    by decide,
    (c7_unrecognized_all_zero ['A', '1', '.'] vowels (by decide)).2 (by decide)⟩

/-- C8: reduction fixes single digits: `reduceNumber d = d` for `d ≤ 9`. -/
theorem c8_single_digit_fixed (d : Nat) (h : d ≤ 9) : reduceNumber d = d :=
  reduceNumber_of_lt d (by omega)

theorem c8_single_digit_fixed_witness : (7 : Nat) ≤ 9 ∧ reduceNumber 7 = 7 :=
  ⟨by decide, c8_single_digit_fixed 7 (by decide)⟩

/-- C9: for positive `n`, `reduceNumber n` lies in [1, 9]; `reduceNumber`
vanishes exactly at 0; and a word containing at least one recognized letter
has a nonzero total reduced value. -/
theorem c9_reduce_range_nonzero (n : Nat) (word : List Char) (c : Char)
    (v : Nat) (hn : 0 < n) (hc : c ∈ word)
    (hv : alphabet_dict.lookup c = some v) :
    (1 ≤ reduceNumber n ∧ reduceNumber n ≤ 9) ∧
    (∀ m, reduceNumber m = 0 ↔ m = 0) ∧
    (analyzeWord word).total_reduced ≠ 0 := by
  have hrange : ∀ k : Nat, 0 < k → 1 ≤ reduceNumber k ∧ reduceNumber k ≤ 9 := by
    intro k hk
    rw [reduceNumber_closed, if_neg (by omega)]
    omega
  have hiff : ∀ m, reduceNumber m = 0 ↔ m = 0 := by
    intro m
    constructor
    · intro h0
      by_contra hm
      have := hrange m (by omega)
      omega
    · intro h0
      subst h0
      exact reduceNumber_of_lt 0 (by norm_num)
  refine ⟨hrange n hn, hiff, ?_⟩
  have hvne : v ≠ 0 := by
    have : ∀ p ∈ alphabet_dict, p.2 ≠ 0 := by decide
    exact this (c, v) (pair_mem_of_lookup_eq_some hv)
  have hcontrib : charContrib alphabet_dict c = v := by
    simp [charContrib, hv, hvne]
  have hle := charContrib_le_sumValues word alphabet_dict c hc
  rw [hcontrib] at hle
  have hpos : 0 < sumValues word alphabet_dict := by omega
  show reduceNumber (sumValues word alphabet_dict) ≠ 0
  have := hrange (sumValues word alphabet_dict) hpos
  omega

theorem c9_reduce_range_nonzero_witness :
    (0 < 3 ∧ 'Α' ∈ ['Α'] ∧ alphabet_dict.lookup 'Α' = some 1) ∧
    ((1 ≤ reduceNumber 3 ∧ reduceNumber 3 ≤ 9) ∧
      (∀ m, reduceNumber m = 0 ↔ m = 0) ∧
      (analyzeWord ['Α']).total_reduced ≠ 0) :=
  ⟨⟨by decide, by decide, by decide⟩,
    c9_reduce_range_nonzero 3 ['Α'] 'Α' 1 (by decide) (by decide) (by decide)⟩

/-- C10: digit reduction is an addition homomorphism —
`reduceNumber (a + b) = reduceNumber (reduceNumber a + reduceNumber b)` —
and consequently every word's total reduced value equals the reduction of the
sum of its vowel-reduced and consonant-reduced values. -/
theorem c10_reduce_add_hom (a b : Nat) (word : List Char) :
    reduceNumber (a + b) = reduceNumber (reduceNumber a + reduceNumber b) ∧
    (analyzeWord word).total_reduced =
      reduceNumber
        ((analyzeWord word).vowel_reduced + (analyzeWord word).consonant_reduced) := by
  refine ⟨reduceNumber_add_hom a b, ?_⟩
  show reduceNumber (sumValues word alphabet_dict) =
    reduceNumber
      (reduceNumber (sumValues word vowels) + reduceNumber (sumValues word consonants))
  rw [sumValues_union word]
  exact reduceNumber_add_hom _ _
